import Mathlib

/-!
Verification development for the cube background model builder in
`gammapy/background/models.py` (class `CubeBackgroundModel` together with the
helper `_get_min_energy_threshold`).

The embedding is shallow and works over exact rational arithmetic (`ℚ`): the
floating-point arrays of the source become total functions `Nat → Nat → Nat → ℚ`
paired with bin-edge lists, and every operation of the source is translated
into a pure Lean function.  Rational division follows the Lean convention
`q / 0 = 0`; the one place where the source can divide by zero — the rescale
step of `smooth`, where numpy produces a non-finite float (NaN for
`0.0/0.0`) that then propagates through the slice — is additionally modelled
with the source's floating-point semantics (`npDiv`, with `none` standing
for a non-finite value).  Physical units (TeV, degree, steradian, second)
are dropped: all unit conversions in the source are multiplications by fixed
positive scalars which are irrelevant to — or explicitly accounted for in —
the statements proved below.  The only non-rational construction is the
logarithmically spaced energy edge vector, which uses `Real.exp`/`Real.log`
exactly as the source uses `np.exp`/`np.log`.
-/

namespace Gammapy

/-- A 3-D cube, mirroring `gammapy.background.Cube` as used by `models.py`:
bin-edge vectors for the energy, Y and X axes plus a data array indexed
`(energy_bin, y_bin, x_bin)`.  The data array is modelled as a total function;
entries at indices outside the shape derived from the edge vectors are
meaningless and all theorems quantify only over in-range indices. -/
structure Cube where
  energy_edges : List ℚ
  coordy_edges : List ℚ
  coordx_edges : List ℚ
  data : Nat → Nat → Nat → ℚ

/-- Number of energy bins of a cube: `len(energy_edges) - 1`. -/
def Cube.nE (c : Cube) : Nat := c.energy_edges.length - 1

/-- Number of Y bins of a cube: `len(coordy_edges) - 1`. -/
def Cube.nY (c : Cube) : Nat := c.coordy_edges.length - 1

/-- Number of X bins of a cube: `len(coordx_edges) - 1`. -/
def Cube.nX (c : Cube) : Nat := c.coordx_edges.length - 1

/-- The freshly constructed empty cube `Cube()` (no binning, no data), as empty cube (no binning, no data), as
produced in the `except` branch of `CubeBackgroundModel.read`. -/
def Cube.empty : Cube := ⟨[], [], [], fun _ _ _ => 0⟩

/-- The total `self.data.sum()`: the sum of a cube's data array over its full shape. -/
def Cube.dataSum (c : Cube) : ℚ :=
  ∑ e ∈ Finset.range c.nE, ∑ y ∈ Finset.range c.nY, ∑ x ∈ Finset.range c.nX, c.data e y x

/-- The solid angle `delta_y * delta_x` of spatial bin `(y, x)`, with
`delta_y = coordy_edges[1:] - coordy_edges[:-1]` and similarly for X
(`models.py` lines 516-521).  The source converts the product to steradian
(`.to('sr')`), a fixed positive rescaling that is immaterial to the claims. -/
def Cube.binArea (c : Cube) (y x : Nat) : ℚ :=
  (c.coordy_edges.getD (y + 1) 0 - c.coordy_edges.getD y 0) *
    (c.coordx_edges.getD (x + 1) 0 - c.coordx_edges.getD x 0)

/-- The spatial integral `(image * bin_area).sum(axis=(1, 2))` of one energy
slice `img`, using the cube's spatial bin edges (`models.py` lines 522-523). -/
def Cube.sliceIntegral (c : Cube) (img : Nat → Nat → ℚ) : ℚ :=
  ∑ y ∈ Finset.range c.nY, ∑ x ∈ Finset.range c.nX, img y x * c.binArea y x

/-- Container for the three cubes of `CubeBackgroundModel`. -/
structure CubeBackgroundModel where
  counts_cube : Cube
  livetime_cube : Cube
  background_cube : Cube

/-- The classmethod `set_cube_binning` (`models.py` lines 256-303): all
three cubes get the same edge vectors and zero-filled data of the derived
shape.  The argument order (X edges, Y edges, energy edges) is the source's. -/
def CubeBackgroundModel.set_cube_binning (detx_edges dety_edges energy_edges : List ℚ) :
    CubeBackgroundModel :=
  { counts_cube := ⟨energy_edges, dety_edges, detx_edges, fun _ _ _ => 0⟩
    livetime_cube := ⟨energy_edges, dety_edges, detx_edges, fun _ _ _ => 0⟩
    background_cube := ⟨energy_edges, dety_edges, detx_edges, fun _ _ _ => 0⟩ }

/-- The `k5a` smoothing kernel of `CubeBackgroundModel.smooth`
(`models.py` lines 538-542). -/
def k5a : List (List ℚ) :=
  [[0, 0, 1, 0, 0],
   [0, 2, 2, 2, 0],
   [1, 2, 5, 2, 1],
   [0, 2, 2, 2, 0],
   [0, 0, 1, 0, 0]]

/-- Kernel weight at row `a`, column `b` (0 outside the 5×5 support). -/
def kernelW (a b : Nat) : ℚ := (k5a.getD a []).getD b 0

/-- Index folding of `scipy.ndimage`'s default boundary mode `'reflect'`
(the input is extended as `(d c b a | a b c d | d c b a)`): an arbitrary
integer index is mapped into `[0, n)` by reflection about the array edges. -/
def reflectIdx (n : Nat) (i : Int) : Nat :=
  let m := (i.emod (2 * (n : Int))).toNat
  if m < n then m else 2 * n - 1 - m

/-- One application of `scipy.ndimage.convolve(data, kernel)` as called in
`CubeBackgroundModel.smooth` (`models.py` line 549): a 2-D convolution with
the 5×5 kernel `k5a`, with scipy's default boundary mode `'reflect'` and
default centered origin, so `out[y, x] = Σ_{a,b} kernel[a][b] *
data[reflect(y + 2 - a), reflect(x + 2 - b)]`. -/
def convolveReflect (ny nx : Nat) (img : Nat → Nat → ℚ) : Nat → Nat → ℚ := fun y x =>
  ∑ a ∈ Finset.range 5, ∑ b ∈ Finset.range 5,
    kernelW a b *
      img (reflectIdx ny ((y : Int) + 2 - (a : Int))) (reflectIdx nx ((x : Int) + 2 - (b : Int)))

/-- Iterated convolution: `n` successive passes, each pass overwriting the slice
with its convolution (the inner `for i_smooth` loop of `smooth`). -/
def iterConv (ny nx : Nat) : Nat → (Nat → Nat → ℚ) → Nat → Nat → ℚ
  | 0, img => img
  | n + 1, img => convolveReflect ny nx (iterConv ny nx n img)

/-- The repetition count of `smooth` (`models.py` lines 526-532):
`n_counts >= 1e6` gives 3, `1e5 <= n_counts < 1e6` gives 4, otherwise 5. -/
def n_smooth (n_counts : ℚ) : Nat :=
  if n_counts ≥ 1000000 then 3
  else if n_counts < 1000000 ∧ n_counts ≥ 100000 then 4
  else 5

/-- The number of smoothing passes used by `smooth`: `n_smooth` applied to the
total sum of the counts cube (`models.py` line 526). -/
def CubeBackgroundModel.smoothPassCount (m : CubeBackgroundModel) : Nat :=
  n_smooth m.counts_cube.dataSum

/-- The method `smooth` (`models.py` lines 485-563): record the
spatial integral of every energy slice, convolve every slice
`smoothPassCount` times with the `k5a` kernel, then rescale every slice by
`original_integral / smoothed_integral`.  Only the background cube's data
array changes.

The rescale division here is total rational division (`q / 0 = 0`), which
agrees with the source exactly on every slice whose smoothed integral is
nonzero.  When that integral is zero the source's numpy division instead
produces a non-finite float (NaN for `0.0/0.0`) that `*=` writes into every
entry of the slice; that error path is modelled faithfully by
`npDiv` / `smoothDataFloat` / `smoothSliceIntegralFloat` below, and
`smoothDataFloat_eq_smooth` proves the two models agree whenever the
denominator is nonzero. -/
def CubeBackgroundModel.smooth (m : CubeBackgroundModel) : CubeBackgroundModel :=
  let bg := m.background_cube
  let smoothed : Nat → Nat → Nat → ℚ := fun e => iterConv bg.nY bg.nX m.smoothPassCount (bg.data e)
  { m with
    background_cube :=
      { bg with
        data := fun e y x =>
          smoothed e y x * (bg.sliceIntegral (bg.data e) / bg.sliceIntegral (smoothed e)) } }

/-- Float division as performed by the rescale step of `smooth`
(`models.py` line 563, `integral_image / integral_image_smooth`): with a zero
denominator numpy produces a non-finite value (NaN for `0.0/0.0`, signed
infinity otherwise, raising only a `RuntimeWarning`), modelled as `none`;
otherwise the exact quotient. -/
def npDiv (a b : ℚ) : Option ℚ := if b = 0 then none else some (a / b)

/-- One entry of the background cube after `smooth()` under the source's
floating-point division semantics: the slice's single rescale factor
`npDiv integral_image integral_image_smooth` is multiplied into the smoothed
entry; a non-finite factor contaminates the entry (`none`), since in numpy
`0.0 * NaN = NaN` and `0.0 * inf = NaN`. -/
def CubeBackgroundModel.smoothDataFloat (m : CubeBackgroundModel) (e y x : Nat) : Option ℚ :=
  (npDiv (m.background_cube.sliceIntegral (m.background_cube.data e))
      (m.background_cube.sliceIntegral
        (iterConv m.background_cube.nY m.background_cube.nX m.smoothPassCount
          (m.background_cube.data e)))).map
    (fun r =>
      iterConv m.background_cube.nY m.background_cube.nX m.smoothPassCount
        (m.background_cube.data e) y x * r)

/-- The spatial integral of energy slice `e` after `smooth()` under the
source's floating-point division semantics.  A non-finite rescale factor is
written into every entry of the slice, so the slice integral is itself
non-finite (`none`) — except when the slice has no spatial bins at all, in
which case numpy's sum over the empty array is 0.  With a finite factor the
integral is the exact rational one. -/
def CubeBackgroundModel.smoothSliceIntegralFloat (m : CubeBackgroundModel) (e : Nat) :
    Option ℚ :=
  if m.background_cube.nY = 0 ∨ m.background_cube.nX = 0 then some 0
  else
    (npDiv (m.background_cube.sliceIntegral (m.background_cube.data e))
        (m.background_cube.sliceIntegral
          (iterConv m.background_cube.nY m.background_cube.nX m.smoothPassCount
            (m.background_cube.data e)))).map
      (fun r =>
        m.background_cube.sliceIntegral
          (fun y x =>
            iterConv m.background_cube.nY m.background_cube.nX m.smoothPassCount
              (m.background_cube.data e) y x * r))

/-- One event of an event list: reconstructed energy and detector coordinates
(the three columns `ENERGY`, `DETY`, `DETX` used by `fill_events`). -/
structure EventRec where
  energy : ℚ
  dety : ℚ
  detx : ℚ

/-- The per-observation inputs consumed by one iteration of the loop in
`fill_events` (`models.py` lines 414-483), after the header fields have been
parsed: the event list, the observation live time and the `LO_THRES` energy
threshold. -/
structure Observation where
  events : List EventRec
  livetime : ℚ
  energy_threshold : ℚ

/-- Modelled from the spec: `EventList.select_energy` (in `gammapy.data`, not
under `src/`), applied in `fill_events` as
`data_set.select_energy((energy_threshold, energy_threshold*1.e6))`.  Per the
spec, it keeps exactly the events with energy in the closed interval
`[threshold, threshold * 1e6]`. -/
def select_energy (events : List EventRec) (emin emax : ℚ) : List EventRec :=
  events.filter (fun ev => decide (emin ≤ ev.energy) && decide (ev.energy ≤ emax))

/-- Membership of value `v` in bin `i` of an edge vector, with
`np.histogramdd` semantics: half-open bins `[edges[i], edges[i+1])`, except
the last bin which also includes its upper edge. -/
def binPredB (edges : List ℚ) (i : Nat) (v : ℚ) : Bool :=
  decide (edges.getD i 0 ≤ v) &&
    (if i + 2 < edges.length then decide (v < edges.getD (i + 1) 0)
     else decide (v ≤ edges.getD (i + 1) 0))

/-- The `np.histogramdd` call of `fill_events` (`models.py` lines 462-465):
the number of events of `evs` falling in the 3-D bin `(e, y, x)` of the given
edge vectors. -/
def histCount (eE eY eX : List ℚ) (evs : List EventRec) (e y x : Nat) : ℚ :=
  (evs.countP (fun ev =>
    binPredB eE e ev.energy && binPredB eY y ev.dety && binPredB eX x ev.detx) : ℚ)

/-- Whether `v` lies inside the overall range of an edge vector — exactly the
values that `np.histogramdd` assigns to some bin (last edge included). -/
def inRange (edges : List ℚ) (v : ℚ) : Prop :=
  2 ≤ edges.length ∧ edges.getD 0 0 ≤ v ∧ v ≤ edges.getD (edges.length - 1) 0

instance (edges : List ℚ) (v : ℚ) : Decidable (inRange edges v) := by
  unfold inRange; infer_instance

/-- An edge vector is a valid histogram binning when its entries are strictly
increasing (`np.histogramdd` requires monotonically increasing bin edges). -/
def strictEdges (edges : List ℚ) : Prop :=
  ∀ i < edges.length - 1, edges.getD i 0 < edges.getD (i + 1) 0

instance (edges : List ℚ) : Decidable (strictEdges edges) := by
  unfold strictEdges; infer_instance

/-- One iteration of the observation loop of `fill_events` (`models.py` lines
414-483): select the events with energy in `[threshold, threshold * 1e6]`,
histogram them into the counts cube's edges and add the histogram to the
counts cube, and add `livetime * (energy_max > energy_threshold)` to every
bin of the livetime cube, where `energy_max` is the upper energy edge of the
bin taken from the counts cube's edges (broadcast over the spatial axes). -/
def CubeBackgroundModel.fill_observation (m : CubeBackgroundModel) (obs : Observation) :
    CubeBackgroundModel :=
  let sel := select_energy obs.events obs.energy_threshold (obs.energy_threshold * 1000000)
  { m with
    counts_cube :=
      { m.counts_cube with
        data := fun e y x =>
          m.counts_cube.data e y x +
            histCount m.counts_cube.energy_edges m.counts_cube.coordy_edges
              m.counts_cube.coordx_edges sel e y x }
    livetime_cube :=
      { m.livetime_cube with
        data := fun e y x =>
          m.livetime_cube.data e y x +
            (if m.counts_cube.energy_edges.getD (e + 1) 0 > obs.energy_threshold
             then obs.livetime else 0) } }

/-- The method `fill_events`: the loop over the observations of the
group, each iteration being `fill_observation`. -/
def CubeBackgroundModel.fill_events (m : CubeBackgroundModel) (obss : List Observation) :
    CubeBackgroundModel :=
  obss.foldl CubeBackgroundModel.fill_observation m

/-- The `LO_THRES` header field of one effective-area file: its value and the
unit annotation stored in the FITS comment (`models.py` lines 117-126 and
418-423 read `aeff_hdu.header['LO_THRES']` and its comment). -/
structure AeffHeader where
  lo_thres : ℚ
  lo_thres_comment : String

/-- The threshold-parsing pattern shared by `_get_min_energy_threshold`
(`models.py` lines 117-126) and the loop of `fill_events` (lines 418-423):
iterate over the files; at each file, the local variable
`energy_threshold_unit` is assigned `'TeV'` when the comment of `LO_THRES`
equals `'[TeV]'` and is otherwise left at whatever it held from a previous
iteration; reading it while it is still unassigned raises `NameError`
(modelled as `none`).  On success, the list of threshold values (all tagged
with the hard-coded TeV unit) is returned. -/
def parseThresholds : List AeffHeader → Option String → Option (List ℚ)
  | [], _ => some []
  | f :: rest, u =>
    let u' := if f.lo_thres_comment = "[TeV]" then some "TeV" else u
    match u' with
    | none => none
    | some u'' => (parseThresholds rest (some u'')).map (fun ts => f.lo_thres :: ts)

/-- The helper `_get_min_energy_threshold` (`models.py` lines 87-128): starting from the
sentinel `Quantity(999., 'TeV')`, fold `min` over the `LO_THRES` values of
all effective-area files of the observation group; `none` models the
`NameError` raised when the first file's unit comment is unparseable. -/
def get_min_energy_threshold (files : List AeffHeader) : Option ℚ :=
  (parseThresholds files none).map (fun ts => ts.foldl min 999)

/-- The `energy_min` chosen by `define_cube_binning` (`models.py` lines
347-354): `0.1 TeV` under the default method, the result of
`_get_min_energy_threshold` under the `'michi'` method. -/
def define_energy_min (method : String) (files : List AeffHeader) : Option ℚ :=
  if method = "michi" then get_min_energy_threshold files else some (1 / 10)

/-- The cube shape `(n_ebins, n_ybins, n_xbins)` computed by
`define_cube_binning` (`models.py` lines 335-345): base `(20, 60, 60)`;
when the group has fewer than 100 observations, `minus_bins =
int(n_obs/10) - 10` is added to the energy bin count and `4 * minus_bins`
to each spatial bin count. -/
def bg_cube_shape (n_obs : Nat) : Int × Int × Int :=
  if n_obs < 100 then
    (20 + (((n_obs / 10 : Nat) : Int) - 10),
     60 + 4 * (((n_obs / 10 : Nat) : Int) - 10),
     60 + 4 * (((n_obs / 10 : Nat) : Int) - 10))
  else (20, 60, 60)

/-- The logarithmically spaced energy edge vector of `define_cube_binning`
(`models.py` lines 365-370), in exact real arithmetic:
`edges = np.exp(np.arange(n + 1) * log_delta_energy + np.log(energy_min))`
with `log_delta_energy = (log(energy_max) - log(energy_min)) / n`. -/
noncomputable def energyEdges (emin emax : ℚ) (n : Nat) : List ℝ :=
  (List.range (n + 1)).map (fun (i : Nat) =>
    Real.exp ((i : ℝ) * ((Real.log (emax : ℝ) - Real.log (emin : ℝ)) / (n : ℝ)) +
      Real.log (emin : ℝ)))

/-- The linearly spaced spatial edge vector of `define_cube_binning`
(`models.py` lines 375-379): `np.arange(n + 1) * delta + lo` with
`lo = -0.07 rad` and `delta = 0.14 rad / n`.  The source converts the bounds
to degrees, a fixed positive scale factor dropped here: edges are kept in
radians. -/
def spatialEdges (n : Nat) : List ℚ :=
  (List.range (n + 1)).map (fun (i : Nat) =>
    (i : ℚ) * ((7 / 100 - -(7 / 100)) / (n : ℚ)) + -(7 / 100))

/-- The energy edge vector returned by `define_cube_binning` for a group of
`n_obs` observations, given the chosen `energy_min` (`energy_max` is fixed at
80 TeV, `models.py` line 355). -/
noncomputable def define_cube_binning_energy_edges (n_obs : Nat) (emin : ℚ) : List ℝ :=
  energyEdges emin 80 (bg_cube_shape n_obs).1.toNat

/-- The Y edge vector returned by `define_cube_binning`. -/
def define_cube_binning_dety_edges (n_obs : Nat) : List ℚ :=
  spatialEdges (bg_cube_shape n_obs).2.1.toNat

/-- The X edge vector returned by `define_cube_binning`. -/
def define_cube_binning_detx_edges (n_obs : Nat) : List ℚ :=
  spatialEdges (bg_cube_shape n_obs).2.2.toNat

/-- The classmethod `read` (`models.py` lines 194-211).  The three
`Cube.read` calls on the file are abstracted as three given outcomes (the
file and format are fixed throughout the body): the counts and livetime reads
are attempted inside a bare `try/except` whose handler replaces **both** with
freshly created empty cubes, then the background read happens outside any
handler, so only its failure propagates. -/
def CubeBackgroundModel.read {ε : Type} (counts_read livetime_read background_read : Except ε Cube) :
    Except ε CubeBackgroundModel :=
  let cl : Cube × Cube :=
    match counts_read, livetime_read with
    | Except.ok c, Except.ok l => (c, l)
    | _, _ => (Cube.empty, Cube.empty)
  match background_read with
  | Except.error e => Except.error e
  | Except.ok b => Except.ok ⟨cl.1, cl.2, b⟩

/-- Modelled from the spec: the "zero-padded boundary handling" that the spec
attributes to the convolution step of `smooth` — kernel taps falling outside
the image contribute zero instead of being reflected. -/
def convolveZeroPad (ny nx : Nat) (img : Nat → Nat → ℚ) : Nat → Nat → ℚ := fun y x =>
  ∑ a ∈ Finset.range 5, ∑ b ∈ Finset.range 5,
    kernelW a b *
      (if 0 ≤ (y : Int) + 2 - (a : Int) ∧ (y : Int) + 2 - (a : Int) < (ny : Int) ∧
          0 ≤ (x : Int) + 2 - (b : Int) ∧ (x : Int) + 2 - (b : Int) < (nx : Int)
       then img ((y : Int) + 2 - (a : Int)).toNat ((x : Int) + 2 - (b : Int)).toNat
       else 0)

/-- Iterated zero-padded convolution (`n` passes). -/
def iterConvZeroPad (ny nx : Nat) : Nat → (Nat → Nat → ℚ) → Nat → Nat → ℚ
  | 0, img => img
  | n + 1, img => convolveZeroPad ny nx (iterConvZeroPad ny nx n img)

/-- Modelled from the spec: the variant of `smooth` that the claim describes,
identical to `CubeBackgroundModel.smooth` except that each pass uses
zero-padded boundary handling instead of scipy's default reflect mode. -/
def CubeBackgroundModel.smoothZeroPadded (m : CubeBackgroundModel) : CubeBackgroundModel :=
  let bg := m.background_cube
  let smoothed : Nat → Nat → Nat → ℚ :=
    fun e => iterConvZeroPad bg.nY bg.nX m.smoothPassCount (bg.data e)
  { m with
    background_cube :=
      { bg with
        data := fun e y x =>
          smoothed e y x * (bg.sliceIntegral (bg.data e) / bg.sliceIntegral (smoothed e)) } }

/-- A concrete 1×1×2 model for evaluating theorems on explicit data: counts
sum 10^6 (hence 3 smoothing passes), unit bin areas, background slice
`[1, 0]`. -/
def modelA : CubeBackgroundModel :=
  { counts_cube := ⟨[0, 1], [0, 1], [0, 1, 2], fun _ _ _ => 500000⟩
    livetime_cube := ⟨[0, 1], [0, 1], [0, 1, 2], fun _ _ _ => 0⟩
    background_cube := ⟨[0, 1], [0, 1], [0, 1, 2], fun _ _ x => if x = 0 then 1 else 0⟩ }

/-- A freshly zero-filled 1×1×1 model. -/
def modelB : CubeBackgroundModel := CubeBackgroundModel.set_cube_binning [0, 1] [0, 1] [0, 1]

/-- An observation with a single event whose energy passes the threshold
selection but whose DETX coordinate lies outside the cube of `modelB`. -/
def obsA : Observation := ⟨[⟨7 / 10, 0, 5⟩], 100, 1 / 2⟩

/-- A concrete non-empty cube for exercising `CubeBackgroundModel.read`. -/
def cubeB : Cube := ⟨[0, 1], [0, 1], [0, 1], fun _ _ _ => 2⟩

/-- A concrete 2×1×1 model with strictly positive total background integral
but an all-zero first energy slice: counts empty, unit bin areas, background
slices `0` and `1`. -/
def mC1 : CubeBackgroundModel :=
  { counts_cube := ⟨[1, 2, 4], [0, 1], [0, 1], fun _ _ _ => 0⟩
    livetime_cube := ⟨[1, 2, 4], [0, 1], [0, 1], fun _ _ _ => 0⟩
    background_cube := ⟨[1, 2, 4], [0, 1], [0, 1], fun e _ _ => if e = 0 then 0 else 1⟩ }

/-- A variant of `modelA` with a different counts array of the same total sum
and an untouched background cube. -/
def modelA' : CubeBackgroundModel :=
  { modelA with
    counts_cube := ⟨[0, 1], [0, 1], [0, 1, 2], fun _ _ x => if x = 0 then 600000 else 400000⟩ }

/-! ### Basic lemmas about the reflect convolution -/

theorem reflectIdx_lt (n : Nat) (hn : 0 < n) (i : Int) : reflectIdx n i < n := by
  have hne : (2 * (n : Int)) ≠ 0 := by omega
  have h0 : 0 ≤ i.emod (2 * (n : Int)) := Int.emod_nonneg i hne
  have hlt : i.emod (2 * (n : Int)) < 2 * (n : Int) := Int.emod_lt_of_pos i (by omega)
  simp only [reflectIdx]
  split
  · assumption
  · omega

theorem reflectIdx_coe (n y : Nat) (h : y < n) : reflectIdx n (y : Int) = y := by
  have h1 : (y : Int).emod (2 * (n : Int)) = (y : Int) :=
    Int.emod_eq_of_lt (by omega) (by omega)
  simp only [reflectIdx, h1, Int.toNat_natCast]
  simp [h]

theorem getD_nonneg {l : List ℚ} (h : ∀ q ∈ l, 0 ≤ q) (i : Nat) : 0 ≤ l.getD i 0 := by
  rcases hq : l[i]? with _ | q
  · rw [List.getD_eq_getElem?_getD, hq]
    simp
  · rw [List.getD_eq_getElem?_getD, hq]
    exact h q (List.getElem?_mem hq)

theorem kernelW_nonneg (a b : Nat) : 0 ≤ kernelW a b := by
  unfold kernelW
  apply getD_nonneg
  intro q hq
  rcases hrow : k5a[a]? with _ | r
  · rw [List.getD_eq_getElem?_getD, hrow] at hq
    simp at hq
  · rw [List.getD_eq_getElem?_getD, hrow] at hq
    have hall : ∀ r ∈ k5a, ∀ q ∈ r, (0 : ℚ) ≤ q := by decide
    exact hall r (List.getElem?_mem hrow) q hq

theorem kernelW_center : kernelW 2 2 = 5 := rfl

theorem convolveReflect_nonneg (ny nx : Nat) (hy0 : 0 < ny) (hx0 : 0 < nx)
    (img : Nat → Nat → ℚ) (himg : ∀ y < ny, ∀ x < nx, 0 ≤ img y x) (y x : Nat) :
    0 ≤ convolveReflect ny nx img y x := by
  unfold convolveReflect
  refine Finset.sum_nonneg fun a _ => Finset.sum_nonneg fun b _ => mul_nonneg (kernelW_nonneg a b) ?_
  exact himg _ (reflectIdx_lt ny hy0 _) _ (reflectIdx_lt nx hx0 _)

theorem convolveReflect_center_le (ny nx : Nat) (hy0 : 0 < ny) (hx0 : 0 < nx)
    (img : Nat → Nat → ℚ) (himg : ∀ y < ny, ∀ x < nx, 0 ≤ img y x)
    (y x : Nat) (hy : y < ny) (hx : x < nx) :
    5 * img y x ≤ convolveReflect ny nx img y x := by
  unfold convolveReflect
  have hnn : ∀ a b : Nat,
      0 ≤ kernelW a b *
        img (reflectIdx ny ((y : Int) + 2 - (a : Int))) (reflectIdx nx ((x : Int) + 2 - (b : Int))) :=
    fun a b => mul_nonneg (kernelW_nonneg a b)
      (himg _ (reflectIdx_lt ny hy0 _) _ (reflectIdx_lt nx hx0 _))
  have hmem : (2 : Nat) ∈ Finset.range 5 := by decide
  have hstep1 :
      kernelW 2 2 *
          img (reflectIdx ny ((y : Int) + 2 - ((2 : Nat) : Int)))
            (reflectIdx nx ((x : Int) + 2 - ((2 : Nat) : Int))) ≤
        ∑ b ∈ Finset.range 5,
          kernelW 2 b *
            img (reflectIdx ny ((y : Int) + 2 - ((2 : Nat) : Int)))
              (reflectIdx nx ((x : Int) + 2 - (b : Int))) :=
    Finset.single_le_sum (fun b _ => hnn 2 b) hmem
  have hstep2 :
      (∑ b ∈ Finset.range 5,
          kernelW 2 b *
            img (reflectIdx ny ((y : Int) + 2 - ((2 : Nat) : Int)))
              (reflectIdx nx ((x : Int) + 2 - (b : Int)))) ≤
        ∑ a ∈ Finset.range 5, ∑ b ∈ Finset.range 5,
          kernelW a b *
            img (reflectIdx ny ((y : Int) + 2 - (a : Int)))
              (reflectIdx nx ((x : Int) + 2 - (b : Int))) :=
    Finset.single_le_sum (fun a _ => Finset.sum_nonneg fun b _ => hnn a b) hmem
  have hidy : ((y : Int) + 2 - ((2 : Nat) : Int)) = (y : Int) := by push_cast; ring
  have hidx : ((x : Int) + 2 - ((2 : Nat) : Int)) = (x : Int) := by push_cast; ring
  have hcenter :
      kernelW 2 2 *
          img (reflectIdx ny ((y : Int) + 2 - ((2 : Nat) : Int)))
            (reflectIdx nx ((x : Int) + 2 - ((2 : Nat) : Int))) = 5 * img y x := by
    rw [hidy, hidx, reflectIdx_coe ny y hy, reflectIdx_coe nx x hx, kernelW_center]
  rw [← hcenter]
  exact le_trans hstep1 hstep2

theorem iterConv_nonneg (ny nx : Nat) (hy0 : 0 < ny) (hx0 : 0 < nx) (n : Nat)
    (img : Nat → Nat → ℚ) (himg : ∀ y < ny, ∀ x < nx, 0 ≤ img y x) :
    ∀ y < ny, ∀ x < nx, 0 ≤ iterConv ny nx n img y x := by
  induction n with
  | zero => exact himg
  | succ n ih =>
    intro y _ x _
    exact convolveReflect_nonneg ny nx hy0 hx0 _ ih y x

theorem iterConv_center_le (ny nx : Nat) (hy0 : 0 < ny) (hx0 : 0 < nx) (n : Nat)
    (img : Nat → Nat → ℚ) (himg : ∀ y < ny, ∀ x < nx, 0 ≤ img y x)
    (y x : Nat) (hy : y < ny) (hx : x < nx) :
    5 ^ n * img y x ≤ iterConv ny nx n img y x := by
  induction n with
  | zero => simp [iterConv]
  | succ n ih =>
    have h1 : 5 * (5 ^ n * img y x) ≤ 5 * iterConv ny nx n img y x :=
      mul_le_mul_of_nonneg_left ih (by norm_num)
    have h2 : 5 * iterConv ny nx n img y x ≤ convolveReflect ny nx (iterConv ny nx n img) y x :=
      convolveReflect_center_le ny nx hy0 hx0 _ (iterConv_nonneg ny nx hy0 hx0 n img himg) y x hy hx
    calc 5 ^ (n + 1) * img y x = 5 * (5 ^ n * img y x) := by ring
      _ ≤ 5 * iterConv ny nx n img y x := h1
      _ ≤ iterConv ny nx (n + 1) img y x := h2

theorem sliceIntegral_mul_right (c : Cube) (g : Nat → Nat → ℚ) (r : ℚ) :
    c.sliceIntegral (fun y x => g y x * r) = r * c.sliceIntegral g := by
  unfold Cube.sliceIntegral
  rw [Finset.mul_sum]
  refine Finset.sum_congr rfl fun y _ => ?_
  rw [Finset.mul_sum]
  refine Finset.sum_congr rfl fun x _ => ?_
  ring

theorem sliceIntegral_eq_of_edges {c c' : Cube} (hy : c.coordy_edges = c'.coordy_edges)
    (hx : c.coordx_edges = c'.coordx_edges) (img : Nat → Nat → ℚ) :
    c.sliceIntegral img = c'.sliceIntegral img := by
  unfold Cube.sliceIntegral Cube.binArea Cube.nY Cube.nX
  rw [hy, hx]

theorem double_sum_zero {ny nx : Nat} {f : Nat → Nat → ℚ}
    (h0 : ∀ y < ny, ∀ x < nx, 0 ≤ f y x)
    (hs : (∑ y ∈ Finset.range ny, ∑ x ∈ Finset.range nx, f y x) = 0) :
    ∀ y < ny, ∀ x < nx, f y x = 0 := by
  intro y hy x hx
  have hinner : ∀ y' ∈ Finset.range ny, 0 ≤ ∑ x' ∈ Finset.range nx, f y' x' := fun y' hy' =>
    Finset.sum_nonneg fun x' hx' => h0 y' (Finset.mem_range.1 hy') x' (Finset.mem_range.1 hx')
  have h1 := (Finset.sum_eq_zero_iff_of_nonneg hinner).1 hs y (Finset.mem_range.2 hy)
  exact (Finset.sum_eq_zero_iff_of_nonneg fun x' hx' =>
    h0 y hy x' (Finset.mem_range.1 hx')).1 h1 x (Finset.mem_range.2 hx)

/-! ### C1: integral preservation of `smooth` -/

theorem convolveReflect_zero (ny nx : Nat) (g : Nat → Nat → ℚ) (hg : ∀ y x, g y x = 0)
    (y x : Nat) : convolveReflect ny nx g y x = 0 := by
  unfold convolveReflect
  refine Finset.sum_eq_zero fun a _ => Finset.sum_eq_zero fun b _ => ?_
  rw [hg, mul_zero]

theorem iterConv_zero (ny nx n : Nat) (g : Nat → Nat → ℚ) (hg : ∀ y x, g y x = 0) :
    ∀ y x, iterConv ny nx n g y x = 0 := by
  induction n with
  | zero => exact hg
  | succ n ih => exact fun y x => convolveReflect_zero ny nx _ ih y x

theorem smoothDataFloat_eq_smooth (m : CubeBackgroundModel) (e y x : Nat)
    (hS : m.background_cube.sliceIntegral
        (iterConv m.background_cube.nY m.background_cube.nX m.smoothPassCount
          (m.background_cube.data e)) ≠ 0) :
    m.smoothDataFloat e y x = some (m.smooth.background_cube.data e y x) := by
  unfold CubeBackgroundModel.smoothDataFloat npDiv
  rw [if_neg hS, Option.map_some']
  rfl

/-- C1 counterexample: the model `mC1` is in the claim's domain (nonnegative
background data, positive bin solid angles, strictly positive total
integral), yet its first energy slice is identically zero, so at
`models.py` line 563 the source computes the rescale factor
`0.0 / 0.0 = NaN` and multiplies it into the slice: the slice's spatial
integral after `smooth()` is NaN, not the original 0 — the integral of that
energy bin is not preserved. -/
theorem C1_zero_slice_counterexample :
    (0 < ∑ e ∈ Finset.range mC1.background_cube.nE,
        mC1.background_cube.sliceIntegral (mC1.background_cube.data e)) ∧
    mC1.smoothSliceIntegralFloat 0 = none ∧
    mC1.smoothSliceIntegralFloat 0 ≠
      some (mC1.background_cube.sliceIntegral (mC1.background_cube.data 0)) := by
  have hzero : ∀ y x, mC1.background_cube.data 0 y x = 0 := fun y x => rfl
  have hsm : ∀ y x,
      iterConv mC1.background_cube.nY mC1.background_cube.nX mC1.smoothPassCount
        (mC1.background_cube.data 0) y x = 0 :=
    iterConv_zero _ _ _ _ hzero
  have hS : mC1.background_cube.sliceIntegral
      (iterConv mC1.background_cube.nY mC1.background_cube.nX mC1.smoothPassCount
        (mC1.background_cube.data 0)) = 0 := by
    refine Finset.sum_eq_zero fun y _ => Finset.sum_eq_zero fun x _ => ?_
    rw [hsm, zero_mul]
  have hfloat : mC1.smoothSliceIntegralFloat 0 = none := by
    unfold CubeBackgroundModel.smoothSliceIntegralFloat
    rw [if_neg (by decide : ¬ (mC1.background_cube.nY = 0 ∨ mC1.background_cube.nX = 0)),
      hS]
    unfold npDiv
    rw [if_pos rfl, Option.map_none']
  have htotal : 0 < ∑ e ∈ Finset.range mC1.background_cube.nE,
      mC1.background_cube.sliceIntegral (mC1.background_cube.data e) := by
    with_unfolding_all decide
  refine ⟨htotal, hfloat, ?_⟩
  rw [hfloat]
  simp

/-- C1 (amended): for every model whose background cube has positive bin
solid angles and entrywise nonnegative data (as any background cube built as
counts/livetime is), and for every energy bin whose slice has strictly
positive spatial integral, the spatial integral of that slice after
`smooth()` equals — exactly, over exact arithmetic, and with the source's
floating-point division semantics for the rescale — the integral before
`smooth()`: the rescale factor `original_integral / smoothed_integral` is
then finite and restores the integral.  (Under these hypotheses a positive
slice integral forces a positive smoothed integral, so the `0.0/0.0 → NaN`
path of the counterexample cannot occur; with nonnegative data the claim's
strictly-positive-total hypothesis guarantees some such bin, but not all of
them.) -/
theorem C1_smooth_preserves_integrals (m : CubeBackgroundModel)
    (hA : ∀ y < m.background_cube.nY, ∀ x < m.background_cube.nX,
      0 < m.background_cube.binArea y x)
    (hD : ∀ e < m.background_cube.nE, ∀ y < m.background_cube.nY, ∀ x < m.background_cube.nX,
      0 ≤ m.background_cube.data e y x)
    (e : Nat) (he : e < m.background_cube.nE)
    (hslice : 0 < m.background_cube.sliceIntegral (m.background_cube.data e)) :
    m.smoothSliceIntegralFloat e =
      some (m.background_cube.sliceIntegral (m.background_cube.data e)) := by
  set bg := m.background_cube with hbg
  set n := m.smoothPassCount with hn
  obtain ⟨y0, hy0, x0, hx0, hterm⟩ :
      ∃ y, y < bg.nY ∧ ∃ x, x < bg.nX ∧ 0 < bg.data e y x * bg.binArea y x := by
    by_contra hall
    push_neg at hall
    have hle : bg.sliceIntegral (bg.data e) ≤ 0 :=
      Finset.sum_nonpos fun y hy => Finset.sum_nonpos fun x hx =>
        hall y (Finset.mem_range.1 hy) x (Finset.mem_range.1 hx)
    linarith
  have harea := hA y0 hy0 x0 hx0
  have hdata : 0 < bg.data e y0 x0 := by nlinarith [hterm, harea]
  have hy0' : 0 < bg.nY := by omega
  have hx0' : 0 < bg.nX := by omega
  have hDnn : ∀ y < bg.nY, ∀ x < bg.nX, 0 ≤ bg.data e y x := hD e he
  set sm : Nat → Nat → ℚ := iterConv bg.nY bg.nX n (bg.data e) with hsm
  have hsm_nn : ∀ y < bg.nY, ∀ x < bg.nX, 0 ≤ sm y x :=
    iterConv_nonneg bg.nY bg.nX hy0' hx0' n (bg.data e) hDnn
  have hsm_pos : 0 < sm y0 x0 := by
    have hle := iterConv_center_le bg.nY bg.nX hy0' hx0' n (bg.data e) hDnn y0 x0 hy0 hx0
    rw [← hsm] at hle
    have h5 : (0 : ℚ) < 5 ^ n := pow_pos (by norm_num) n
    nlinarith [mul_pos h5 hdata]
  have hS_pos : 0 < bg.sliceIntegral sm := by
    have hterm_nn : ∀ x ∈ Finset.range bg.nX, 0 ≤ sm y0 x * bg.binArea y0 x := fun x hx =>
      mul_nonneg (hsm_nn y0 hy0 x (Finset.mem_range.1 hx))
        (hA y0 hy0 x (Finset.mem_range.1 hx)).le
    have h1 : sm y0 x0 * bg.binArea y0 x0 ≤
        ∑ x ∈ Finset.range bg.nX, sm y0 x * bg.binArea y0 x :=
      Finset.single_le_sum hterm_nn (Finset.mem_range.2 hx0)
    have hrow_nn : ∀ y ∈ Finset.range bg.nY,
        0 ≤ ∑ x ∈ Finset.range bg.nX, sm y x * bg.binArea y x := fun y hy =>
      Finset.sum_nonneg fun x hx =>
        mul_nonneg (hsm_nn y (Finset.mem_range.1 hy) x (Finset.mem_range.1 hx))
          (hA y (Finset.mem_range.1 hy) x (Finset.mem_range.1 hx)).le
    have h2 : (∑ x ∈ Finset.range bg.nX, sm y0 x * bg.binArea y0 x) ≤
        ∑ y ∈ Finset.range bg.nY, ∑ x ∈ Finset.range bg.nX, sm y x * bg.binArea y x :=
      Finset.single_le_sum hrow_nn (Finset.mem_range.2 hy0)
    show 0 < ∑ y ∈ Finset.range bg.nY, ∑ x ∈ Finset.range bg.nX, sm y x * bg.binArea y x
    calc (0 : ℚ) < sm y0 x0 * bg.binArea y0 x0 := mul_pos hsm_pos harea
      _ ≤ ∑ x ∈ Finset.range bg.nX, sm y0 x * bg.binArea y0 x := h1
      _ ≤ _ := h2
  unfold CubeBackgroundModel.smoothSliceIntegralFloat
  simp only [← hbg, ← hn, ← hsm]
  rw [if_neg (not_or.2 ⟨by omega, by omega⟩)]
  unfold npDiv
  rw [if_neg (ne_of_gt hS_pos), Option.map_some']
  rw [sliceIntegral_mul_right, div_mul_cancel₀ _ (ne_of_gt hS_pos)]

/-- Witness for C1 at the concrete model `modelA`, whose slice 0 has
integral 1. -/
theorem C1_smooth_preserves_integrals_witness :
    modelA.smoothSliceIntegralFloat 0 =
      some (modelA.background_cube.sliceIntegral (modelA.background_cube.data 0)) :=
  C1_smooth_preserves_integrals modelA (by with_unfolding_all decide)
    (by with_unfolding_all decide) 0 (by decide) (by with_unfolding_all decide)

/-! ### C2: the boundary mode of the convolution in `smooth` -/

theorem smooth_data_eq (m : CubeBackgroundModel) (e y x : Nat) :
    m.smooth.background_cube.data e y x =
      iterConv m.background_cube.nY m.background_cube.nX m.smoothPassCount
          (m.background_cube.data e) y x *
        (m.background_cube.sliceIntegral (m.background_cube.data e) /
          m.background_cube.sliceIntegral
            (iterConv m.background_cube.nY m.background_cube.nX m.smoothPassCount
              (m.background_cube.data e))) := rfl

theorem convolveReflect_one_two (g : Nat → Nat → ℚ) :
    convolveReflect 1 2 g 0 0 = 17 * g 0 0 + 8 * g 0 1 ∧
    convolveReflect 1 2 g 0 1 = 8 * g 0 0 + 17 * g 0 1 := by
  have r1 : ∀ i : Int, reflectIdx 1 i = 0 := fun i => by
    have := reflectIdx_lt 1 (by decide) i; omega
  have e0 : reflectIdx 2 0 = 0 := by decide
  have e1 : reflectIdx 2 1 = 1 := by decide
  have e2 : reflectIdx 2 2 = 1 := by decide
  have e3 : reflectIdx 2 3 = 0 := by decide
  have em1 : reflectIdx 2 (-1) = 0 := by decide
  have em2 : reflectIdx 2 (-2) = 1 := by decide
  constructor <;>
  · unfold convolveReflect
    simp only [Finset.sum_range_succ, Finset.sum_range_zero]
    norm_num [r1, e0, e1, e2, e3, em1, em2, kernelW, k5a]
    ring

theorem convolveZeroPad_one_two (g : Nat → Nat → ℚ) :
    convolveZeroPad 1 2 g 0 0 = 5 * g 0 0 + 2 * g 0 1 ∧
    convolveZeroPad 1 2 g 0 1 = 2 * g 0 0 + 5 * g 0 1 := by
  constructor <;>
  · unfold convolveZeroPad
    simp only [Finset.sum_range_succ, Finset.sum_range_zero]
    norm_num [kernelW, k5a]
    ring

theorem iterConv_one_two_step (g : Nat → Nat → ℚ) (n : Nat) (p q : ℚ)
    (hp : iterConv 1 2 n g 0 0 = p) (hq : iterConv 1 2 n g 0 1 = q) :
    iterConv 1 2 (n + 1) g 0 0 = 17 * p + 8 * q ∧
    iterConv 1 2 (n + 1) g 0 1 = 8 * p + 17 * q := by
  constructor
  · show convolveReflect 1 2 (iterConv 1 2 n g) 0 0 = _
    rw [(convolveReflect_one_two _).1, hp, hq]
  · show convolveReflect 1 2 (iterConv 1 2 n g) 0 1 = _
    rw [(convolveReflect_one_two _).2, hp, hq]

theorem iterConvZeroPad_one_two_step (g : Nat → Nat → ℚ) (n : Nat) (p q : ℚ)
    (hp : iterConvZeroPad 1 2 n g 0 0 = p) (hq : iterConvZeroPad 1 2 n g 0 1 = q) :
    iterConvZeroPad 1 2 (n + 1) g 0 0 = 5 * p + 2 * q ∧
    iterConvZeroPad 1 2 (n + 1) g 0 1 = 2 * p + 5 * q := by
  constructor
  · show convolveZeroPad 1 2 (iterConvZeroPad 1 2 n g) 0 0 = _
    rw [(convolveZeroPad_one_two _).1, hp, hq]
  · show convolveZeroPad 1 2 (iterConvZeroPad 1 2 n g) 0 1 = _
    rw [(convolveZeroPad_one_two _).2, hp, hq]

/-- C2 counterexample: on the concrete model `modelA` (counts total 10^6,
hence 3 passes; background slice `[1, 0]` on a 1×2 grid with unit bin areas),
the result of the source's `smooth` — scipy's `ndimage.convolve` with its
default `'reflect'` boundary mode — differs from the zero-padded variant that
the claim describes, so the convolution of `smooth` is not zero-padded. -/
theorem C2_zero_padding_counterexample :
    modelA.smooth.background_cube.data 0 0 0 ≠
      modelA.smoothZeroPadded.background_cube.data 0 0 0 := by
  -- the background slice
  have hg0 : modelA.background_cube.data 0 0 0 = 1 := rfl
  have hg1 : modelA.background_cube.data 0 0 1 = 0 := rfl
  -- three reflect passes: [1,0] → [17,8] → [353,272] → [8177,7448]
  have h0a : iterConv 1 2 0 (modelA.background_cube.data 0) 0 0 = 1 := hg0
  have h0b : iterConv 1 2 0 (modelA.background_cube.data 0) 0 1 = 0 := hg1
  obtain ⟨h1a, h1b⟩ := iterConv_one_two_step _ 0 1 0 h0a h0b
  norm_num at h1a h1b
  obtain ⟨h2a, h2b⟩ := iterConv_one_two_step _ 1 17 8 h1a h1b
  norm_num at h2a h2b
  obtain ⟨h3a, h3b⟩ := iterConv_one_two_step _ 2 353 272 h2a h2b
  norm_num at h3a h3b
  -- three zero-padded passes: [1,0] → [5,2] → [29,20] → [185,158]
  obtain ⟨z1a, z1b⟩ := iterConvZeroPad_one_two_step _ 0 1 0 h0a h0b
  norm_num at z1a z1b
  obtain ⟨z2a, z2b⟩ := iterConvZeroPad_one_two_step _ 1 5 2 z1a z1b
  norm_num at z2a z2b
  obtain ⟨z3a, z3b⟩ := iterConvZeroPad_one_two_step _ 2 29 20 z2a z2b
  norm_num at z3a z3b
  -- pass count and bin areas
  have hpass : modelA.smoothPassCount = 3 := by with_unfolding_all decide
  have hI : modelA.background_cube.sliceIntegral (modelA.background_cube.data 0) = 1 := by
    with_unfolding_all decide
  have hA0 : modelA.background_cube.binArea 0 0 = 1 := by with_unfolding_all decide
  have hA1 : modelA.background_cube.binArea 0 1 = 1 := by with_unfolding_all decide
  have hnY : modelA.background_cube.nY = 1 := rfl
  have hnX : modelA.background_cube.nX = 2 := rfl
  -- integrals of the smoothed slices
  have hSr : modelA.background_cube.sliceIntegral
      (iterConv 1 2 3 (modelA.background_cube.data 0)) = 15625 := by
    unfold Cube.sliceIntegral
    rw [hnY, hnX]
    simp only [Finset.sum_range_succ, Finset.sum_range_zero]
    rw [h3a, h3b, hA0, hA1]
    norm_num
  have hSz : modelA.background_cube.sliceIntegral
      (iterConvZeroPad 1 2 3 (modelA.background_cube.data 0)) = 343 := by
    unfold Cube.sliceIntegral
    rw [hnY, hnX]
    simp only [Finset.sum_range_succ, Finset.sum_range_zero]
    rw [z3a, z3b, hA0, hA1]
    norm_num
  -- the two final values
  have hL : modelA.smooth.background_cube.data 0 0 0 =
      iterConv 1 2 modelA.smoothPassCount (modelA.background_cube.data 0) 0 0 *
        (modelA.background_cube.sliceIntegral (modelA.background_cube.data 0) /
          modelA.background_cube.sliceIntegral
            (iterConv 1 2 modelA.smoothPassCount (modelA.background_cube.data 0))) := rfl
  have hR : modelA.smoothZeroPadded.background_cube.data 0 0 0 =
      iterConvZeroPad 1 2 modelA.smoothPassCount (modelA.background_cube.data 0) 0 0 *
        (modelA.background_cube.sliceIntegral (modelA.background_cube.data 0) /
          modelA.background_cube.sliceIntegral
            (iterConvZeroPad 1 2 modelA.smoothPassCount (modelA.background_cube.data 0))) := rfl
  rw [hL, hR, hpass, hI, hSr, hSz, h3a, z3a]
  norm_num

/-- C2 (amended): in `smooth()`, each energy bin's 2-D (Y,X) image is
convolved, independently of the other energy bins and of everything in the
model except the counts total, with the fixed 5×5 `k5a` kernel using scipy's
default `'reflect'` boundary handling (not zero padding), the convolution
being repeated `smoothPassCount` times with the slice overwritten after each pass,
after which the slice is rescaled. -/
theorem C2_reflect_convolution (m m' : CubeBackgroundModel) (e : Nat)
    (hc : m'.counts_cube.dataSum = m.counts_cube.dataSum)
    (hY : m'.background_cube.coordy_edges = m.background_cube.coordy_edges)
    (hX : m'.background_cube.coordx_edges = m.background_cube.coordx_edges)
    (hslice : m'.background_cube.data e = m.background_cube.data e) :
    (∀ y x, m.smooth.background_cube.data e y x =
        iterConv m.background_cube.nY m.background_cube.nX m.smoothPassCount
            (m.background_cube.data e) y x *
          (m.background_cube.sliceIntegral (m.background_cube.data e) /
            m.background_cube.sliceIntegral
              (iterConv m.background_cube.nY m.background_cube.nX m.smoothPassCount
                (m.background_cube.data e)))) ∧
    (∀ y x, m'.smooth.background_cube.data e y x = m.smooth.background_cube.data e y x) := by
  have hnY : m'.background_cube.nY = m.background_cube.nY := by
    unfold Cube.nY; rw [hY]
  have hnX : m'.background_cube.nX = m.background_cube.nX := by
    unfold Cube.nX; rw [hX]
  have hpass : m'.smoothPassCount = m.smoothPassCount := by
    unfold CubeBackgroundModel.smoothPassCount; rw [hc]
  have hSI : ∀ img, m'.background_cube.sliceIntegral img = m.background_cube.sliceIntegral img :=
    sliceIntegral_eq_of_edges hY hX
  refine ⟨fun y x => smooth_data_eq m e y x, fun y x => ?_⟩
  rw [smooth_data_eq m' e y x, smooth_data_eq m e y x, hnY, hnX, hpass, hslice, hSI, hSI]

/-- Witness for C2 at the concrete models `modelA'` and `modelA`, which agree
on the background cube and on the counts total but not on the counts array. -/
theorem C2_reflect_convolution_witness :
    modelA'.smooth.background_cube.data 0 0 0 = modelA.smooth.background_cube.data 0 0 0 :=
  (C2_reflect_convolution modelA modelA' 0
    (by norm_num [modelA, modelA', Cube.dataSum, Cube.nE, Cube.nY, Cube.nX, Finset.sum_range_succ])
    rfl rfl rfl).2 0 0

/-! ### C3: livetime gating, C7: repetition count, C9: shared edges, C10: read -/

/-- C3: during `fill_events`, for each observation in the group, every 3-D
bin whose energy-bin upper edge (taken from the counts cube's energy edges)
strictly exceeds the observation's energy threshold receives an additive
contribution to the livetime cube exactly equal to the observation's full
livetime, and every bin whose upper edge is less than or equal to the
threshold receives exactly zero contribution, uniformly over all spatial
bins. -/
theorem C3_livetime_gating (m : CubeBackgroundModel) (obs : Observation) (e y x : Nat)
    (he : e < m.livetime_cube.nE) (hy : y < m.livetime_cube.nY) (hx : x < m.livetime_cube.nX) :
    (obs.energy_threshold < m.counts_cube.energy_edges.getD (e + 1) 0 →
      (m.fill_observation obs).livetime_cube.data e y x =
        m.livetime_cube.data e y x + obs.livetime) ∧
    (m.counts_cube.energy_edges.getD (e + 1) 0 ≤ obs.energy_threshold →
      (m.fill_observation obs).livetime_cube.data e y x = m.livetime_cube.data e y x) := by
  constructor
  · intro h
    show m.livetime_cube.data e y x +
        (if m.counts_cube.energy_edges.getD (e + 1) 0 > obs.energy_threshold
         then obs.livetime else 0) = _
    rw [if_pos h]
  · intro h
    show m.livetime_cube.data e y x +
        (if m.counts_cube.energy_edges.getD (e + 1) 0 > obs.energy_threshold
         then obs.livetime else 0) = _
    rw [if_neg (not_lt.2 h), add_zero]

/-- Witness for C3 at the concrete model `modelA` and observation `obsA`. -/
theorem C3_livetime_gating_witness :
    (modelA.fill_observation obsA).livetime_cube.data 0 0 0 =
      modelA.livetime_cube.data 0 0 0 + obsA.livetime :=
  (C3_livetime_gating modelA obsA 0 0 0 (by decide) (by decide) (by decide)).1
    (by with_unfolding_all decide)

/-- C7: the number of smoothing passes is determined solely by the total sum
of the counts cube: a sum of at least 1e6 gives exactly 3 passes, a sum in
`[1e5, 1e6)` gives exactly 4 passes, a sum below 1e5 gives exactly 5 passes;
in particular totals 1,000,000 / 999,999 / 99,999 give 3 / 4 / 5 passes. -/
theorem C7_smoothing_repetitions (m m' : CubeBackgroundModel)
    (h : m.counts_cube.dataSum = m'.counts_cube.dataSum) :
    m.smoothPassCount = m'.smoothPassCount ∧
    (1000000 ≤ m.counts_cube.dataSum → m.smoothPassCount = 3) ∧
    (100000 ≤ m.counts_cube.dataSum → m.counts_cube.dataSum < 1000000 →
      m.smoothPassCount = 4) ∧
    (m.counts_cube.dataSum < 100000 → m.smoothPassCount = 5) ∧
    n_smooth 1000000 = 3 ∧ n_smooth 999999 = 4 ∧ n_smooth 99999 = 5 := by
  refine ⟨by unfold CubeBackgroundModel.smoothPassCount; rw [h], ?_, ?_, ?_, ?_, ?_, ?_⟩
  · intro h1
    unfold CubeBackgroundModel.smoothPassCount n_smooth
    rw [if_pos h1]
  · intro h1 h2
    unfold CubeBackgroundModel.smoothPassCount n_smooth
    rw [if_neg (not_le.2 h2), if_pos ⟨h2, h1⟩]
  · intro h1
    unfold CubeBackgroundModel.smoothPassCount n_smooth
    rw [if_neg (not_le.2 (lt_trans h1 (by norm_num))),
      if_neg (fun hc => absurd hc.2 (not_le.2 h1))]
  · decide
  · decide
  · decide

/-- Witness for C7 at the concrete model `modelA`, whose counts total is
exactly 1,000,000. -/
theorem C7_smoothing_repetitions_witness : modelA.smoothPassCount = 3 :=
  (C7_smoothing_repetitions modelA modelA rfl).2.1
    (by norm_num [modelA, Cube.dataSum, Cube.nE, Cube.nY, Cube.nX, Finset.sum_range_succ])

theorem fill_events_preserves (m : CubeBackgroundModel) (obss : List Observation) :
    (m.fill_events obss).counts_cube.energy_edges = m.counts_cube.energy_edges ∧
    (m.fill_events obss).counts_cube.coordy_edges = m.counts_cube.coordy_edges ∧
    (m.fill_events obss).counts_cube.coordx_edges = m.counts_cube.coordx_edges ∧
    (m.fill_events obss).livetime_cube.energy_edges = m.livetime_cube.energy_edges ∧
    (m.fill_events obss).livetime_cube.coordy_edges = m.livetime_cube.coordy_edges ∧
    (m.fill_events obss).livetime_cube.coordx_edges = m.livetime_cube.coordx_edges ∧
    (m.fill_events obss).background_cube = m.background_cube := by
  induction obss generalizing m with
  | nil => exact ⟨rfl, rfl, rfl, rfl, rfl, rfl, rfl⟩
  | cons o rest ih => exact ih (m.fill_observation o)

/-- C9: every model built by `set_cube_binning` has its counts, livetime and
background cubes sharing identical energy, Y and X edge vectors and
zero-filled data of the shared shape, and this invariant is preserved by
`fill_events` and `smooth`, which mutate only data arrays and never edge
vectors (`smooth` leaves the counts and livetime cubes entirely untouched,
`fill_events` leaves the background cube entirely untouched). -/
theorem C9_shared_edges (ex ey ee : List ℚ) (m : CubeBackgroundModel)
    (obss : List Observation) :
    ((CubeBackgroundModel.set_cube_binning ex ey ee).counts_cube.energy_edges = ee ∧
     (CubeBackgroundModel.set_cube_binning ex ey ee).livetime_cube.energy_edges = ee ∧
     (CubeBackgroundModel.set_cube_binning ex ey ee).background_cube.energy_edges = ee ∧
     (CubeBackgroundModel.set_cube_binning ex ey ee).counts_cube.coordy_edges = ey ∧
     (CubeBackgroundModel.set_cube_binning ex ey ee).livetime_cube.coordy_edges = ey ∧
     (CubeBackgroundModel.set_cube_binning ex ey ee).background_cube.coordy_edges = ey ∧
     (CubeBackgroundModel.set_cube_binning ex ey ee).counts_cube.coordx_edges = ex ∧
     (CubeBackgroundModel.set_cube_binning ex ey ee).livetime_cube.coordx_edges = ex ∧
     (CubeBackgroundModel.set_cube_binning ex ey ee).background_cube.coordx_edges = ex ∧
     (CubeBackgroundModel.set_cube_binning ex ey ee).counts_cube.data = (fun _ _ _ => 0) ∧
     (CubeBackgroundModel.set_cube_binning ex ey ee).livetime_cube.data = (fun _ _ _ => 0) ∧
     (CubeBackgroundModel.set_cube_binning ex ey ee).background_cube.data = (fun _ _ _ => 0)) ∧
    ((m.fill_events obss).counts_cube.energy_edges = m.counts_cube.energy_edges ∧
     (m.fill_events obss).counts_cube.coordy_edges = m.counts_cube.coordy_edges ∧
     (m.fill_events obss).counts_cube.coordx_edges = m.counts_cube.coordx_edges ∧
     (m.fill_events obss).livetime_cube.energy_edges = m.livetime_cube.energy_edges ∧
     (m.fill_events obss).livetime_cube.coordy_edges = m.livetime_cube.coordy_edges ∧
     (m.fill_events obss).livetime_cube.coordx_edges = m.livetime_cube.coordx_edges ∧
     (m.fill_events obss).background_cube = m.background_cube) ∧
    (m.smooth.counts_cube = m.counts_cube ∧
     m.smooth.livetime_cube = m.livetime_cube ∧
     m.smooth.background_cube.energy_edges = m.background_cube.energy_edges ∧
     m.smooth.background_cube.coordy_edges = m.background_cube.coordy_edges ∧
     m.smooth.background_cube.coordx_edges = m.background_cube.coordx_edges) :=
  ⟨⟨rfl, rfl, rfl, rfl, rfl, rfl, rfl, rfl, rfl, rfl, rfl, rfl⟩,
    fill_events_preserves m obss, ⟨rfl, rfl, rfl, rfl, rfl⟩⟩

/-- C10: for every input file, any failure of the counts-cube or
livetime-cube read is swallowed by the bare `except` handler, which replaces
both cubes by freshly created empty ones; the background cube is the one read
from the file, and only a failure of the background-cube read itself makes
`read` fail (propagating that same error). -/
theorem C10_read_error_handling {ε : Type} (rc rl rb : Except ε Cube) :
    (∀ er b, (rc = Except.error er ∨ rl = Except.error er) → rb = Except.ok b →
      CubeBackgroundModel.read rc rl rb = Except.ok ⟨Cube.empty, Cube.empty, b⟩) ∧
    (∀ b, rb = Except.ok b →
      ∃ c l, CubeBackgroundModel.read rc rl rb = Except.ok ⟨c, l, b⟩) ∧
    (∀ er, rb = Except.error er → CubeBackgroundModel.read rc rl rb = Except.error er) ∧
    (∀ er, CubeBackgroundModel.read rc rl rb = Except.error er → rb = Except.error er) := by
  refine ⟨?_, ?_, ?_, ?_⟩
  · intro er b h hb
    subst hb
    rcases rc with ec | c <;> rcases rl with el | l <;>
      first
        | rfl
        | (rcases h with h | h <;> exact absurd h (by simp))
  · intro b hb
    subst hb
    exact ⟨_, _, rfl⟩
  · intro er hb
    subst hb
    rfl
  · intro er hread
    rcases rb with eb | b
    · simpa [CubeBackgroundModel.read] using hread
    · exact absurd hread (by simp [CubeBackgroundModel.read])

/-- Witness for C10: a failing counts read together with successful livetime
and background reads. -/
theorem C10_read_error_handling_witness :
    CubeBackgroundModel.read (Except.error "corrupt counts table") (Except.ok cubeB)
        (Except.ok cubeB) = Except.ok ⟨Cube.empty, Cube.empty, cubeB⟩ :=
  (C10_read_error_handling (Except.error "corrupt counts table") (Except.ok cubeB)
      (Except.ok cubeB)).1 "corrupt counts table" cubeB (Or.inl rfl) rfl

/-! ### C5, C6, C8: binning bounds, bin counts, threshold-unit handling -/

theorem parseThresholds_some (files : List AeffHeader) (u : String) :
    parseThresholds files (some u) = some (files.map AeffHeader.lo_thres) := by
  induction files generalizing u with
  | nil => rfl
  | cons f rest ih =>
    by_cases hc : f.lo_thres_comment = "[TeV]" <;> simp [parseThresholds, hc, ih]

theorem parseThresholds_none_head (f : AeffHeader) (rest : List AeffHeader)
    (h : ¬ f.lo_thres_comment = "[TeV]") :
    parseThresholds (f :: rest) none = none := by
  simp [parseThresholds, h]

theorem parseThresholds_head_tev (f : AeffHeader) (rest : List AeffHeader)
    (h : f.lo_thres_comment = "[TeV]") :
    parseThresholds (f :: rest) none = some ((f :: rest).map AeffHeader.lo_thres) := by
  simp [parseThresholds, h, parseThresholds_some]

/-- C8 counterexample: with a single observation whose `LO_THRES` comment is
not `'[TeV]'`, the local unit variable is never assigned, so the threshold
lookup raises `NameError` (modelled as `none`) instead of completing with a
hard-coded TeV fallback. -/
theorem C8_counterexample :
    get_min_energy_threshold [⟨1, ""⟩] = none ∧ parseThresholds [⟨1, ""⟩] none = none :=
  ⟨rfl, rfl⟩

/-- C8 (amended): the hard-coded TeV fallback only masks malformed unit
annotations on files other than the first one processed: the scan completes
if and only if the first file's `LO_THRES` comment is `'[TeV]'` (later files'
comments are irrelevant, their values being tagged with the stale TeV unit),
and on success it returns all threshold values; with a malformed first
comment the lookup fails with `NameError` instead of falling back. -/
theorem C8_threshold_unit_fallback (f : AeffHeader) (rest : List AeffHeader) :
    ((parseThresholds (f :: rest) none).isSome ↔ f.lo_thres_comment = "[TeV]") ∧
    (f.lo_thres_comment = "[TeV]" →
      parseThresholds (f :: rest) none = some ((f :: rest).map AeffHeader.lo_thres) ∧
      get_min_energy_threshold (f :: rest) =
        some (((f :: rest).map AeffHeader.lo_thres).foldl min 999)) := by
  constructor
  · constructor
    · intro hs
      by_contra hc
      rw [parseThresholds_none_head f rest hc] at hs
      simp at hs
    · intro hc
      rw [parseThresholds_head_tev f rest hc]
      simp
  · intro hc
    refine ⟨parseThresholds_head_tev f rest hc, ?_⟩
    unfold get_min_energy_threshold
    rw [parseThresholds_head_tev f rest hc]
    rfl

/-- Witness for C8 with a single well-formed observation. -/
theorem C8_threshold_unit_fallback_witness :
    parseThresholds [⟨1, "[TeV]"⟩] none = some [1] ∧
    get_min_energy_threshold [⟨1, "[TeV]"⟩] = some 1 := by
  have h := (C8_threshold_unit_fallback ⟨1, "[TeV]"⟩ []).2 rfl
  refine ⟨h.1, ?_⟩
  rw [h.2]
  norm_num

/-- C5 counterexample: for a (well-formed) group whose single observation has
energy threshold 1000 TeV, the source's scan returns the sentinel
`min(999 TeV, 1000 TeV) = 999 TeV`, not the group's minimum threshold
1000 TeV, so the lower bound of the energy edges is not the minimum energy
threshold of the observations. -/
theorem C5_counterexample :
    define_energy_min "michi" [⟨1000, "[TeV]"⟩] = some 999 ∧
    define_energy_min "michi" [⟨1000, "[TeV]"⟩] ≠ some 1000 := by
  have h : define_energy_min "michi" [⟨1000, "[TeV]"⟩] = some (min 999 1000) := by
    unfold define_energy_min get_min_energy_threshold
    rw [if_pos rfl, parseThresholds_head_tev _ _ rfl]
    rfl
  have hmin : (min 999 1000 : ℚ) = 999 := by norm_num
  rw [h, hmin]
  exact ⟨rfl, by decide⟩

theorem foldl_min_pos (l : List ℚ) (acc : ℚ) (hacc : 0 < acc) (hl : ∀ q ∈ l, 0 < q) :
    0 < l.foldl min acc := by
  induction l generalizing acc with
  | nil => exact hacc
  | cons q rest ih =>
    apply ih
    · exact lt_min hacc (hl q (by simp))
    · intro r hr
      exact hl r (by simp [hr])

theorem energyEdges_length (emin emax : ℚ) (n : Nat) :
    (energyEdges emin emax n).length = n + 1 := by
  unfold energyEdges
  rw [List.length_map, List.length_range]

theorem energyEdges_head (emin emax : ℚ) (n : Nat) (h : 0 < emin) :
    (energyEdges emin emax n).head? = some ((emin : ℝ)) := by
  have h0 : Real.exp (((0 : Nat) : ℝ) *
      ((Real.log ((emax : ℚ) : ℝ) - Real.log ((emin : ℚ) : ℝ)) / ((n : Nat) : ℝ)) +
        Real.log ((emin : ℚ) : ℝ)) = ((emin : ℚ) : ℝ) := by
    rw [Nat.cast_zero, zero_mul, zero_add,
      Real.exp_log (by exact_mod_cast h : (0 : ℝ) < ((emin : ℚ) : ℝ))]
  unfold energyEdges
  rw [List.range_succ_eq_map, List.map_cons, List.head?_cons, h0]

theorem energyEdges_getLast (emin emax : ℚ) (n : Nat) (hn : n ≠ 0)
    (hmax : (0 : ℝ) < ((emax : ℚ) : ℝ)) :
    (energyEdges emin emax n).getLast? = some ((emax : ℝ)) := by
  have hn' : ((n : Nat) : ℝ) ≠ 0 := Nat.cast_ne_zero.2 hn
  have h1 : ((n : Nat) : ℝ) *
      ((Real.log ((emax : ℚ) : ℝ) - Real.log ((emin : ℚ) : ℝ)) / ((n : Nat) : ℝ)) =
        Real.log ((emax : ℚ) : ℝ) - Real.log ((emin : ℚ) : ℝ) := by
    field_simp
  unfold energyEdges
  rw [List.range_succ, List.map_append]
  simp only [List.map_cons, List.map_nil]
  rw [List.getLast?_concat, h1, sub_add_cancel, Real.exp_log hmax]

/-- C5 (amended): under the adaptive (`'michi'`) method, for every non-empty
group with well-formed metadata and positive thresholds, the lower bound of
the energy edges is the minimum of the 999 TeV sentinel and of all the
observations' energy thresholds (hence the group minimum whenever some
threshold is at most 999 TeV), while the upper bound stays fixed at 80 TeV;
under the default method the lower bound is 0.1 TeV. -/
theorem C5_energy_bounds (files : List AeffHeader) (n : Nat) (hn : n ≠ 0)
    (hne : files ≠ [])
    (hwf : ∀ f ∈ files, f.lo_thres_comment = "[TeV]")
    (hpos : ∀ f ∈ files, 0 < f.lo_thres) :
    ∃ tmin : ℚ,
      define_energy_min "michi" files = some tmin ∧
      tmin = (files.map AeffHeader.lo_thres).foldl min 999 ∧
      (energyEdges tmin 80 n).head? = some ((tmin : ℝ)) ∧
      (energyEdges tmin 80 n).getLast? = some (((80 : ℚ) : ℝ)) ∧
      define_energy_min "default" files = some (1 / 10) ∧
      (energyEdges (1 / 10) 80 n).head? = some (((1 / 10 : ℚ) : ℝ)) ∧
      (energyEdges (1 / 10) 80 n).getLast? = some (((80 : ℚ) : ℝ)) := by
  rcases files with _ | ⟨f, rest⟩
  · exact absurd rfl hne
  have hcomment := hwf f (by simp)
  have hdef : define_energy_min "michi" (f :: rest) =
      some (((f :: rest).map AeffHeader.lo_thres).foldl min 999) := by
    unfold define_energy_min get_min_energy_threshold
    rw [if_pos rfl, parseThresholds_head_tev f rest hcomment]
    rfl
  have hpos' : 0 < ((f :: rest).map AeffHeader.lo_thres).foldl min 999 := by
    apply foldl_min_pos _ _ (by norm_num)
    intro q hq
    obtain ⟨g, hg, rfl⟩ := List.mem_map.1 hq
    exact hpos g hg
  refine ⟨((f :: rest).map AeffHeader.lo_thres).foldl min 999, hdef, rfl,
    energyEdges_head _ _ _ hpos', energyEdges_getLast _ _ _ hn (by norm_num), ?_,
    energyEdges_head _ _ _ (by norm_num), energyEdges_getLast _ _ _ hn (by norm_num)⟩
  unfold define_energy_min
  rw [if_neg (by decide)]

/-- Witness for C5 at a single well-formed observation and one energy bin. -/
theorem C5_energy_bounds_witness :
    ∃ tmin : ℚ,
      define_energy_min "michi" [⟨1, "[TeV]"⟩] = some tmin ∧
      tmin = (([⟨1, "[TeV]"⟩] : List AeffHeader).map AeffHeader.lo_thres).foldl min 999 ∧
      (energyEdges tmin 80 1).head? = some ((tmin : ℝ)) ∧
      (energyEdges tmin 80 1).getLast? = some (((80 : ℚ) : ℝ)) ∧
      define_energy_min "default" [⟨1, "[TeV]"⟩] = some (1 / 10) ∧
      (energyEdges (1 / 10) 80 1).head? = some (((1 / 10 : ℚ) : ℝ)) ∧
      (energyEdges (1 / 10) 80 1).getLast? = some (((80 : ℚ) : ℝ)) :=
  C5_energy_bounds [⟨1, "[TeV]"⟩] 1 (by decide) (by simp) (by decide)
    (by decide)

/-- C6: `define_cube_binning` computes 20 energy bins and 60×60 spatial bins
for groups of at least 100 observations; for smaller groups, with
`k = floor(n_obs/10) - 10`, it computes `20 + k` energy bins and `60 + 4k`
bins per spatial axis (so 100 observations give (20, 60, 60), 99 give 19 and
56, 50 give 15 and 40); the bin counts stay positive and every returned edge
vector has exactly one more element than the corresponding bin count. -/
theorem C6_binning_formula :
    (∀ n_obs, 100 ≤ n_obs → bg_cube_shape n_obs = (20, 60, 60)) ∧
    (∀ n_obs, n_obs < 100 →
      bg_cube_shape n_obs =
        (20 + (((n_obs / 10 : Nat) : Int) - 10),
         60 + 4 * (((n_obs / 10 : Nat) : Int) - 10),
         60 + 4 * (((n_obs / 10 : Nat) : Int) - 10))) ∧
    bg_cube_shape 100 = (20, 60, 60) ∧
    bg_cube_shape 99 = (19, 56, 56) ∧
    bg_cube_shape 50 = (15, 40, 40) ∧
    (∀ n_obs, 0 < (bg_cube_shape n_obs).1 ∧ 0 < (bg_cube_shape n_obs).2.1 ∧
      0 < (bg_cube_shape n_obs).2.2) ∧
    (∀ n_obs emin, (define_cube_binning_energy_edges n_obs emin).length =
      (bg_cube_shape n_obs).1.toNat + 1) ∧
    (∀ n_obs, (define_cube_binning_dety_edges n_obs).length =
      (bg_cube_shape n_obs).2.1.toNat + 1) ∧
    (∀ n_obs, (define_cube_binning_detx_edges n_obs).length =
      (bg_cube_shape n_obs).2.2.toNat + 1) := by
  refine ⟨?_, ?_, by decide, by decide, by decide, ?_, ?_, ?_, ?_⟩
  · intro n h
    unfold bg_cube_shape
    rw [if_neg (Nat.not_lt.2 h)]
  · intro n h
    unfold bg_cube_shape
    rw [if_pos h]
  · intro n
    by_cases h : n < 100 <;> simp [bg_cube_shape, h] <;> omega
  · intro n emin
    unfold define_cube_binning_energy_edges
    rw [energyEdges_length]
  · intro n
    unfold define_cube_binning_dety_edges spatialEdges
    rw [List.length_map, List.length_range]
  · intro n
    unfold define_cube_binning_detx_edges spatialEdges
    rw [List.length_map, List.length_range]

/-- Witness for C6 at group sizes 150 and 50. -/
theorem C6_binning_formula_witness :
    bg_cube_shape 150 = (20, 60, 60) ∧
    bg_cube_shape 50 =
      (20 + (((50 / 10 : Nat) : Int) - 10), 60 + 4 * (((50 / 10 : Nat) : Int) - 10),
       60 + 4 * (((50 / 10 : Nat) : Int) - 10)) :=
  ⟨C6_binning_formula.1 150 (by decide), C6_binning_formula.2.1 50 (by decide)⟩

/-! ### C4: histogram totals -/

theorem edges_mono {edges : List ℚ} (h : strictEdges edges) :
    ∀ i j, i ≤ j → j < edges.length → edges.getD i 0 ≤ edges.getD j 0 := by
  intro i j hij hj
  induction j, hij using Nat.le_induction with
  | base => exact le_refl _
  | succ j hij ih =>
    have hj' : j < edges.length := by omega
    exact le_trans (ih hj') (le_of_lt (h j (by omega)))

theorem binPredB_iff (edges : List ℚ) (i : Nat) (v : ℚ) :
    binPredB edges i v = true ↔
      (edges.getD i 0 ≤ v ∧
        ((i + 2 < edges.length ∧ v < edges.getD (i + 1) 0) ∨
         (¬ i + 2 < edges.length ∧ v ≤ edges.getD (i + 1) 0))) := by
  unfold binPredB
  by_cases hc : i + 2 < edges.length <;> simp [hc]

theorem binPredB_out (edges : List ℚ) (h : strictEdges edges) (v : ℚ) (i : Nat)
    (hi : i < edges.length - 1) (hbin : binPredB edges i v = true) :
    edges.getD 0 0 ≤ v ∧ v ≤ edges.getD (edges.length - 1) 0 := by
  obtain ⟨h1, h2⟩ := (binPredB_iff edges i v).1 hbin
  constructor
  · exact le_trans (edges_mono h 0 i (Nat.zero_le i) (by omega)) h1
  · rcases h2 with ⟨hlt, hv⟩ | ⟨hge, hv⟩
    · exact le_trans (le_of_lt hv)
        (edges_mono h (i + 1) (edges.length - 1) (by omega) (by omega))
    · have heq : i + 1 = edges.length - 1 := by omega
      rw [← heq]
      exact hv

theorem binPredB_uniq (edges : List ℚ) (h : strictEdges edges) (v : ℚ) (i j : Nat)
    (hi : i < edges.length - 1) (hj : j < edges.length - 1)
    (hbi : binPredB edges i v = true) (hbj : binPredB edges j v = true) : i = j := by
  have key : ∀ a b, a < b → b < edges.length - 1 → binPredB edges a v = true →
      binPredB edges b v = true → False := by
    intro a b hab hb hba hbb
    obtain ⟨ha1, ha2⟩ := (binPredB_iff edges a v).1 hba
    obtain ⟨hb1, _⟩ := (binPredB_iff edges b v).1 hbb
    have haLT : v < edges.getD (a + 1) 0 := by
      rcases ha2 with ⟨_, hv⟩ | ⟨hgt, _⟩
      · exact hv
      · exact absurd (by omega : a + 2 < edges.length) hgt
    have hmono : edges.getD (a + 1) 0 ≤ edges.getD b 0 :=
      edges_mono h (a + 1) b hab (by omega)
    linarith
  rcases Nat.lt_trichotomy i j with hij | hij | hij
  · exact absurd (key i j hij hj hbi hbj) not_false
  · exact hij
  · exact absurd (key j i hij hi hbj hbi) not_false

theorem binPredB_exists (edges : List ℚ) (h : strictEdges edges) (v : ℚ)
    (hlen : 2 ≤ edges.length) (h0 : edges.getD 0 0 ≤ v)
    (hN : v ≤ edges.getD (edges.length - 1) 0) :
    ∃ i, i < edges.length - 1 ∧ binPredB edges i v = true := by
  classical
  set S : Finset Nat := (Finset.range (edges.length - 1)).filter
    (fun i => edges.getD i 0 ≤ v) with hS
  have h0S : 0 ∈ S := by
    rw [hS, Finset.mem_filter, Finset.mem_range]
    exact ⟨by omega, h0⟩
  set i0 := S.max' ⟨0, h0S⟩ with hi0
  have hi0S : i0 ∈ S := S.max'_mem ⟨0, h0S⟩
  rw [hS, Finset.mem_filter, Finset.mem_range] at hi0S
  obtain ⟨hi0n, hi0le⟩ := hi0S
  refine ⟨i0, hi0n, ?_⟩
  rw [binPredB_iff]
  refine ⟨hi0le, ?_⟩
  by_cases hc : i0 + 2 < edges.length
  · left
    refine ⟨hc, ?_⟩
    by_contra hvge
    push_neg at hvge
    have hmem : i0 + 1 ∈ S := by
      rw [hS, Finset.mem_filter, Finset.mem_range]
      exact ⟨by omega, hvge⟩
    have hle := Finset.le_max' S (i0 + 1) hmem
    rw [← hi0] at hle
    omega
  · right
    refine ⟨hc, ?_⟩
    have heq : i0 + 1 = edges.length - 1 := by omega
    rw [heq]
    exact hN

theorem binPred_indicator_sum (edges : List ℚ) (h : strictEdges edges) (v : ℚ) :
    (∑ i ∈ Finset.range (edges.length - 1),
      if binPredB edges i v = true then (1 : ℚ) else 0) =
      if inRange edges v then 1 else 0 := by
  by_cases hr : inRange edges v
  · obtain ⟨hlen, h0, hN⟩ := hr
    obtain ⟨i0, hi0, hbin⟩ := binPredB_exists edges h v hlen h0 hN
    have hb0 : ∀ b ∈ Finset.range (edges.length - 1), b ≠ i0 →
        (if binPredB edges b v = true then (1 : ℚ) else 0) = 0 := by
      intro b hb hne
      apply if_neg
      intro hbb
      exact hne (binPredB_uniq edges h v b i0 (Finset.mem_range.1 hb) hi0 hbb hbin)
    have hb1 : i0 ∉ Finset.range (edges.length - 1) →
        (if binPredB edges i0 v = true then (1 : ℚ) else 0) = 0 := fun habs =>
      absurd (Finset.mem_range.2 hi0) habs
    rw [Finset.sum_eq_single i0 hb0 hb1, if_pos hbin, if_pos ⟨hlen, h0, hN⟩]
  · rw [if_neg hr]
    apply Finset.sum_eq_zero
    intro i hi
    have hiR := Finset.mem_range.1 hi
    apply if_neg
    intro hbin
    have hout := binPredB_out edges h v i hiR hbin
    exact hr ⟨by omega, hout.1, hout.2⟩

theorem triple_indicator (eE eY eX : List ℚ) (hE : strictEdges eE) (hY : strictEdges eY)
    (hX : strictEdges eX) (ev : EventRec) :
    (∑ e ∈ Finset.range (eE.length - 1), ∑ y ∈ Finset.range (eY.length - 1),
      ∑ x ∈ Finset.range (eX.length - 1),
        if (binPredB eE e ev.energy && binPredB eY y ev.dety &&
            binPredB eX x ev.detx) = true then (1 : ℚ) else 0) =
      if (decide (inRange eE ev.energy) && decide (inRange eY ev.dety) &&
          decide (inRange eX ev.detx)) = true then 1 else 0 := by
  have hsplit : ∀ p q r : Bool,
      (if (p && q && r) = true then (1 : ℚ) else 0) =
        (if p = true then (1 : ℚ) else 0) *
          ((if q = true then (1 : ℚ) else 0) * (if r = true then (1 : ℚ) else 0)) := by
    intro p q r
    cases p <;> cases q <;> cases r <;> norm_num
  have hsum3 :
      (∑ e ∈ Finset.range (eE.length - 1), ∑ y ∈ Finset.range (eY.length - 1),
        ∑ x ∈ Finset.range (eX.length - 1),
          (if binPredB eE e ev.energy = true then (1 : ℚ) else 0) *
            ((if binPredB eY y ev.dety = true then (1 : ℚ) else 0) *
              (if binPredB eX x ev.detx = true then (1 : ℚ) else 0))) =
      (∑ e ∈ Finset.range (eE.length - 1),
          if binPredB eE e ev.energy = true then (1 : ℚ) else 0) *
        ((∑ y ∈ Finset.range (eY.length - 1),
            if binPredB eY y ev.dety = true then (1 : ℚ) else 0) *
          (∑ x ∈ Finset.range (eX.length - 1),
            if binPredB eX x ev.detx = true then (1 : ℚ) else 0)) := by
    rw [Finset.sum_mul_sum, Finset.sum_mul_sum]
    refine Finset.sum_congr rfl fun e _ => Finset.sum_congr rfl fun y _ => ?_
    rw [Finset.mul_sum]
  calc (∑ e ∈ Finset.range (eE.length - 1), ∑ y ∈ Finset.range (eY.length - 1),
      ∑ x ∈ Finset.range (eX.length - 1),
        if (binPredB eE e ev.energy && binPredB eY y ev.dety &&
            binPredB eX x ev.detx) = true then (1 : ℚ) else 0)
      = ∑ e ∈ Finset.range (eE.length - 1), ∑ y ∈ Finset.range (eY.length - 1),
          ∑ x ∈ Finset.range (eX.length - 1),
            (if binPredB eE e ev.energy = true then (1 : ℚ) else 0) *
              ((if binPredB eY y ev.dety = true then (1 : ℚ) else 0) *
                (if binPredB eX x ev.detx = true then (1 : ℚ) else 0)) := by
        refine Finset.sum_congr rfl fun e _ => Finset.sum_congr rfl fun y _ =>
          Finset.sum_congr rfl fun x _ => ?_
        exact hsplit _ _ _
    _ = (∑ e ∈ Finset.range (eE.length - 1),
          if binPredB eE e ev.energy = true then (1 : ℚ) else 0) *
        ((∑ y ∈ Finset.range (eY.length - 1),
            if binPredB eY y ev.dety = true then (1 : ℚ) else 0) *
          (∑ x ∈ Finset.range (eX.length - 1),
            if binPredB eX x ev.detx = true then (1 : ℚ) else 0)) := hsum3
    _ = (if inRange eE ev.energy then (1 : ℚ) else 0) *
        ((if inRange eY ev.dety then (1 : ℚ) else 0) *
          (if inRange eX ev.detx then (1 : ℚ) else 0)) := by
        rw [binPred_indicator_sum eE hE, binPred_indicator_sum eY hY,
          binPred_indicator_sum eX hX]
    _ = if (decide (inRange eE ev.energy) && decide (inRange eY ev.dety) &&
          decide (inRange eX ev.detx)) = true then 1 else 0 := by
        by_cases hA : inRange eE ev.energy <;> by_cases hB : inRange eY ev.dety <;>
          by_cases hC : inRange eX ev.detx <;> simp [hA, hB, hC]

theorem sum_histCount (eE eY eX : List ℚ) (hE : strictEdges eE) (hY : strictEdges eY)
    (hX : strictEdges eX) (l : List EventRec) :
    (∑ e ∈ Finset.range (eE.length - 1), ∑ y ∈ Finset.range (eY.length - 1),
      ∑ x ∈ Finset.range (eX.length - 1), histCount eE eY eX l e y x) =
      ((l.filter (fun ev => decide (inRange eE ev.energy) && decide (inRange eY ev.dety) &&
          decide (inRange eX ev.detx))).length : ℚ) := by
  induction l with
  | nil => simp [histCount]
  | cons ev l ih =>
    have hcons : ∀ e y x, histCount eE eY eX (ev :: l) e y x =
        histCount eE eY eX l e y x +
          (if (binPredB eE e ev.energy && binPredB eY y ev.dety &&
              binPredB eX x ev.detx) = true then (1 : ℚ) else 0) := by
      intro e y x
      unfold histCount
      rw [List.countP_cons, Nat.cast_add]
      congr 1
      by_cases hp : (binPredB eE e ev.energy && binPredB eY y ev.dety &&
          binPredB eX x ev.detx) = true <;> simp [hp]
    simp only [hcons, Finset.sum_add_distrib]
    rw [ih, triple_indicator eE eY eX hE hY hX ev, List.filter_cons]
    by_cases hp : (decide (inRange eE ev.energy) && decide (inRange eY ev.dety) &&
        decide (inRange eX ev.detx)) = true
    · rw [if_pos hp, if_pos hp, List.length_cons]
      push_cast
      ring
    · rw [if_neg hp, if_neg hp, add_zero]

/-- C4 counterexample: filling a freshly zero-filled 1×1×1 model with the
single observation `obsA` (one event whose energy passes the threshold
selection but whose DETX lies outside the cube) yields a counts-cube total of
0, not the filtered event count 1: events outside the cube's bin ranges are
dropped by the histogram. -/
theorem C4_counterexample :
    ((CubeBackgroundModel.set_cube_binning [0, 1] [0, 1] [0, 1]).fill_events
        [obsA]).counts_cube.dataSum ≠
      ((select_energy obsA.events obsA.energy_threshold
          (obsA.energy_threshold * 1000000)).length : ℚ) := by
  with_unfolding_all decide

/-- C4 (amended): for strictly increasing edge vectors, filling a freshly
zero-filled model with a single observation makes the total sum of the counts
cube equal to the number of that observation's events that both pass the
energy-threshold selection (energy in `[threshold, threshold * 1e6]`) and
fall within the cube's bin ranges on all three axes. -/
theorem C4_histogram_totals (ex ey ee : List ℚ) (obs : Observation)
    (hex : strictEdges ex) (hey : strictEdges ey) (hee : strictEdges ee) :
    ((CubeBackgroundModel.set_cube_binning ex ey ee).fill_events [obs]).counts_cube.dataSum =
      (((select_energy obs.events obs.energy_threshold (obs.energy_threshold * 1000000)).filter
          (fun ev => decide (inRange ee ev.energy) && decide (inRange ey ev.dety) &&
            decide (inRange ex ev.detx))).length : ℚ) := by
  have hdata : ∀ e y x,
      ((CubeBackgroundModel.set_cube_binning ex ey ee).fill_events [obs]).counts_cube.data e y x =
        histCount ee ey ex (select_energy obs.events obs.energy_threshold
          (obs.energy_threshold * 1000000)) e y x := by
    intro e y x
    show (0 : ℚ) + histCount ee ey ex (select_energy obs.events obs.energy_threshold
      (obs.energy_threshold * 1000000)) e y x = _
    rw [zero_add]
  unfold Cube.dataSum
  have hnE : ((CubeBackgroundModel.set_cube_binning ex ey ee).fill_events
      [obs]).counts_cube.nE = ee.length - 1 := rfl
  have hnY : ((CubeBackgroundModel.set_cube_binning ex ey ee).fill_events
      [obs]).counts_cube.nY = ey.length - 1 := rfl
  have hnX : ((CubeBackgroundModel.set_cube_binning ex ey ee).fill_events
      [obs]).counts_cube.nX = ex.length - 1 := rfl
  rw [hnE, hnY, hnX]
  simp only [hdata]
  exact sum_histCount ee ey ex hee hey hex _

/-- Witness for C4 at concrete edges and the observation `obsA`. -/
theorem C4_histogram_totals_witness :
    ((CubeBackgroundModel.set_cube_binning [0, 1] [0, 1] [0, 1]).fill_events
        [obsA]).counts_cube.dataSum =
      (((select_energy obsA.events obsA.energy_threshold
          (obsA.energy_threshold * 1000000)).filter
          (fun ev => decide (inRange [0, 1] ev.energy) && decide (inRange [0, 1] ev.dety) &&
            decide (inRange [0, 1] ev.detx))).length : ℚ) :=
  C4_histogram_totals [0, 1] [0, 1] [0, 1] obsA (by decide) (by decide) (by decide)

end Gammapy
